import Mathlib

/-!
Verification development for the chat-log frequency analyzer (src/main.py).

The pipeline is embedded shallowly: strings are lists of characters,
Python dictionaries are association lists in insertion order (a Python
3.7+ dict preserves insertion order; assigning to an existing key keeps
its position), Python's stable sort is modelled by a stable insertion
sort, and file-system interaction is modelled by explicit sum types for
the possible states of a file.  Regular-expression substitutions of the
normalizer are implemented as character-list scanners that follow the
leftmost, non-overlapping match discipline of Python re.sub.

Two deliberate approximations, stated where they are used: Python's
Unicode word class (the w escape) is modelled by ASCII alphanumerics
plus underscore (the CJK ideograph range, the only other alphabet this
program meets, is covered by the explicit range term of the same
character class); Python's whitespace class is modelled by
Char.isWhitespace.  Neither approximation changes the truth value of
any stated property: the proofs depend only on facts such as the colon,
the at-sign and the opening bracket lying outside the allowed class,
which hold in both readings.
-/

namespace ChatAnalyzer

/-- Model of the character class kept by the third substitution of
preprocess_text (main.py line 154): word characters, CJK ideographs
U+4E00 to U+9FFF, whitespace, and the eight listed punctuation marks. -/
def allowedChar (c : Char) : Bool :=
  c.isAlphanum || c == '_' ||
  (decide (0x4e00 ≤ c.toNat) && decide (c.toNat ≤ 0x9fff)) ||
  c.isWhitespace ||
  c == '.' || c == ',' || c == '!' || c == '?' ||
  c == '，' || c == '。' || c == '！' || c == '？'

/-- Boolean test that the first list is an initial segment of the second. -/
def beginsWith : List Char → List Char → Bool
  | [], _ => true
  | _ :: _, [] => false
  | a :: as, b :: bs => a == b && beginsWith as bs

/-- Whether a URL match of the pattern https?://S+ (main.py line 150)
starts exactly at the head of the list: the literal scheme prefix,
preferring the https alternative, followed by at least one
non-whitespace character. -/
def urlStartsAt (l : List Char) : Bool :=
  if beginsWith "https://".toList l then
    match l.drop 8 with
    | [] => false
    | c :: _ => !c.isWhitespace
  else if beginsWith "http://".toList l then
    match l.drop 7 with
    | [] => false
    | c :: _ => !c.isWhitespace
  else false

/-- Scanner for the first substitution of preprocess_text (URL removal,
main.py line 150).  The Boolean mode records whether the scanner is
inside a match; since the matched text (scheme plus a greedy run of
non-whitespace) extends exactly to the next whitespace character or the
end of input, skipping until whitespace removes exactly the match. -/
def urlStripGo : Bool → List Char → List Char
  | _, [] => []
  | true, c :: cs =>
    if c.isWhitespace then c :: urlStripGo false cs else urlStripGo true cs
  | false, c :: cs =>
    if urlStartsAt (c :: cs) then urlStripGo true cs
    else c :: urlStripGo false cs

/-- Removal of URL-shaped substrings, modelling re.sub of https?://S+
with the empty string (main.py line 150). -/
def urlStrip (l : List Char) : List Char := urlStripGo false l

/-- Whether an email match of the pattern S+@S+ (main.py line 152)
starts exactly at the head of the list.  Such a match exists here iff
the maximal non-whitespace run starting here contains an at-sign that
has at least one character of the run on each side; the greedy match
then covers the whole run. -/
def emailStartsAt (l : List Char) : Bool :=
  match l with
  | [] => false
  | c :: _ =>
    !c.isWhitespace &&
    (((l.takeWhile (fun x => !x.isWhitespace)).drop 1).dropLast.any (fun x => x == '@'))

/-- Scanner for the second substitution of preprocess_text (email
removal, main.py line 152), with the same skip-until-whitespace mode
discipline as urlStripGo. -/
def emailStripGo : Bool → List Char → List Char
  | _, [] => []
  | true, c :: cs =>
    if c.isWhitespace then c :: emailStripGo false cs else emailStripGo true cs
  | false, c :: cs =>
    if emailStartsAt (c :: cs) then emailStripGo true cs
    else c :: emailStripGo false cs

/-- Removal of email-shaped substrings, modelling re.sub of S+@S+ with
the empty string (main.py line 152). -/
def emailStrip (l : List Char) : List Char := emailStripGo false l

/-- Replacement of every maximal whitespace run by a single space,
modelling re.sub of one-or-more whitespace with a space
(main.py line 156). -/
def collapseWs : List Char → List Char
  | [] => []
  | [c] => if c.isWhitespace then [' '] else [c]
  | c :: d :: cs =>
    if c.isWhitespace && d.isWhitespace then collapseWs (d :: cs)
    else (if c.isWhitespace then ' ' else c) :: collapseWs (d :: cs)

/-- Removal of leading and trailing whitespace, modelling the Python
str.strip method (main.py lines 157 and 207). -/
def pyStrip (l : List Char) : List Char :=
  (((l.dropWhile Char.isWhitespace).reverse).dropWhile Char.isWhitespace).reverse

/-- The strip method on strings. -/
def pyStripStr (s : String) : String := String.mk (pyStrip s.data)

/-- The Text Normalizer, ChatFrequencyAnalyzer.preprocess_text
(main.py lines 139-157): URL removal, email removal, removal of
characters outside the allowed class, whitespace collapsing, strip. -/
def preprocess_text (s : String) : String :=
  String.mk (pyStrip (collapseWs ((emailStrip (urlStrip s.data)).filter allowedChar)))

/-- The Tokenizer Adapter, ChatFrequencyAnalyzer.extract_words
(main.py lines 159-175).  The external jieba segmenter is an abstract
parameter; its output is stripped and empty results are dropped. -/
def extract_words (seg : String → List String) (text : String) : List String :=
  ((seg text).map pyStripStr).filter (fun w => !(w == ""))

/-- One increment of a Python collections.Counter: an existing key is
updated in place, a new key is appended with count 1
(main.py lines 240-241). -/
def counterAdd (d : List (String × Nat)) (w : String) : List (String × Nat) :=
  if d.any (fun p => p.1 == w) then
    d.map (fun p => if p.1 == w then (p.1, p.2 + 1) else p)
  else d ++ [(w, 1)]

/-- Outcome of the per-line dispatch inside analyze_chat_file: the line
is consumed by the period category, consumed by the question-mark
category, or yields a (possibly empty) list of word tokens. -/
inductive LineStep
  | periodLine
  | questionLine
  | words (ws : List String)
deriving DecidableEq

/-- The per-line dispatch of analyze_chat_file (main.py lines 206-237):
with punctuation stats enabled, a stripped line equal to the single
period, the single question mark, or consisting entirely of one of the
two symbols (and non-empty) is consumed by the matching category, in
the order of the four source checks; every other line is normalized
and, if the normalized text is non-empty, tokenized. -/
def classifyLine (enable : Bool) (seg : String → List String) (line : String) : LineStep :=
  let stripped := pyStripStr line
  if enable && (stripped == "。") then .periodLine
  else if enable && (stripped == "？") then .questionLine
  else if enable && stripped.data.all (fun c => c == '。') && decide (0 < stripped.data.length) then
    .periodLine
  else if enable && stripped.data.all (fun c => c == '？') && decide (0 < stripped.data.length) then
    .questionLine
  else
    let processed := preprocess_text line
    if processed == "" then .words []
    else .words (extract_words seg processed)

/-- Analysis state threaded through the line loop: the token frequency
table, the period-category tally and the question-mark-category tally. -/
abbrev AState := List (String × Nat) × Nat × Nat

/-- Effect of one line on the analysis state (main.py lines 201-243). -/
def processLine (enable : Bool) (seg : String → List String) (st : AState) (line : String) :
    AState :=
  match classifyLine enable seg line with
  | .periodLine => (st.1, st.2.1 + 1, st.2.2)
  | .questionLine => (st.1, st.2.1, st.2.2 + 1)
  | .words ws => (ws.foldl counterAdd st.1, st.2.1, st.2.2)

/-- Possible states of the input file as seen by analyze_chat_file:
readable UTF-8 content as a list of lines, a missing file
(FileNotFoundError), or content that is not UTF-8
(UnicodeDecodeError). -/
inductive FileRead
  | ok (lines : List String)
  | notFound
  | badEncoding

/-- ChatFrequencyAnalyzer.analyze_chat_file (main.py lines 177-253):
fold the line loop over a readable file, producing the word frequency
table and the punctuation tally with its two fixed categories; on a
missing file or a decoding error return two empty tables. -/
def analyze_chat_file (enable : Bool) (seg : String → List String) (fr : FileRead) :
    List (String × Nat) × List (String × Nat) :=
  match fr with
  | .notFound => ([], [])
  | .badEncoding => ([], [])
  | .ok lines =>
    let st := lines.foldl (processLine enable seg) ([], 0, 0)
    (st.1, [("句号", st.2.1), ("问号", st.2.2)])

/-- The built-in stopword set default_stopwords (main.py lines 83-123),
transcribed literal by literal in source order, duplicates included (a
Python set literal merges them; only membership matters here).  The
lone apostrophe entry is written via its code point to keep the source
text plain. -/
def default_stopwords : List String :=
  ["的", "了", "和", "是", "就", "都", "而", "及", "与", "或",
   "在", "中", "了", "我", "你", "他", "她", "它", "们",
   "这", "那", "哪", "谁", "什么", "怎么", "为什么",
   "啊", "哦", "嗯", "哈", "啦", "呀", "吧", "吗", "呢",
   "不", "没", "有", "是", "也", "都", "又", "再",
   "上", "下", "左", "右", "前", "后", "里", "外",
   "一", "二", "三", "四", "五", "六", "七", "八", "九", "十",
   "很", "最", "太", "更", "非常", "特别",
   "a", "b", "c", "d", "e", "f", "g", "h", "i", "j", "k", "l", "m",
   "n", "o", "p", "q", "r", "s", "t", "u", "v", "w", "x", "y", "z",
   "A", "B", "C", "D", "E", "F", "G", "H", "I", "J", "K", "L", "M",
   "N", "O", "P", "Q", "R", "S", "T", "U", "V", "W", "X", "Y", "Z",
   "0", "1", "2", "3", "4", "5", "6", "7", "8", "9",
   ".", ",", "。", "，", "!", "！", "?", "？", ":", "：", ";", "；",
   "(", ")", "（", "）", "[", "]", "\x7b", "\x7d", "<", ">",
   "\"", String.mk [Char.ofNat 39], "「", "」", "『", "』", "、",
   " ", "\t", "\n", "\r",
   "这个", "那个", "一个", "一些", "一种", "一样",
   "时候", "时间", "开始", "然后", "最后",
   "可以", "可能", "可是", "但是", "虽然", "如果",
   "因为", "所以", "然后", "而且", "那么",
   "这样", "那样", "怎么", "什么", "为什么",
   "有点", "有些", "有点", "有些",
   "自己", "别人", "大家", "有人",
   "知道", "觉得", "认为", "以为",
   "看到", "听见", "听到", "想到",
   "今天", "明天", "昨天", "现在", "以前", "以后",
   "还有", "还有", "还是", "还有",
   "这里", "那里", "哪里", "这边", "那边",
   "的话", "的说", "的是", "了了"]

/-- The synthesized pseudo-label for a punctuation category
(main.py line 277). -/
def pseudoLabel (name : String) : String := "[整行都是" ++ name ++ "]"

/-- Assignment to a Python dict key: an existing key keeps its position
and receives the new value, a new key is appended. -/
def dictInsert (d : List (String × Nat)) (k : String) (v : Nat) : List (String × Nat) :=
  if d.any (fun p => p.1 == k) then
    d.map (fun p => if p.1 == k then (k, v) else p)
  else d ++ [(k, v)]

/-- The candidate table built by filter_and_sort before sorting
(main.py lines 266-278): the word entries not in the stopword set with
count at least min_frequency, in table order, then, when punctuation
stats are enabled, each category tally reaching min_frequency assigned
under its pseudo-label with no stopword check. -/
def candidates (stopwords : List String) (min_frequency : Nat)
    (enable_punctuation_stats : Bool) (word_freq : List (String × Nat))
    (special_counts : List (String × Nat)) : List (String × Nat) :=
  let filtered_freq := word_freq.filter
    (fun p => !(stopwords.contains p.1) && decide (min_frequency ≤ p.2))
  if enable_punctuation_stats then
    special_counts.foldl
      (fun acc q =>
        if decide (min_frequency ≤ q.2) then dictInsert acc (pseudoLabel q.1) q.2 else acc)
      filtered_freq
  else filtered_freq

/-- Insertion of one entry into a list sorted by count descending.  An
incoming entry moves past every entry of strictly greater or equal
count, so earlier entries of equal count stay in front: this is the
stability discipline of the Python sorted builtin. -/
def insertDesc (x : String × Nat) : List (String × Nat) → List (String × Nat)
  | [] => [x]
  | y :: ys => if y.2 ≤ x.2 then x :: y :: ys else y :: insertDesc x ys

/-- Stable sort by count descending, modelling
sorted(..., key=lambda x: x[1], reverse=True) (main.py line 281). -/
def sortDesc : List (String × Nat) → List (String × Nat)
  | [] => []
  | x :: xs => insertDesc x (sortDesc xs)

/-- The Filter and Rank Engine, ChatFrequencyAnalyzer.filter_and_sort
(main.py lines 255-283). -/
def filter_and_sort (stopwords : List String) (min_frequency : Nat)
    (enable_punctuation_stats : Bool) (word_freq : List (String × Nat))
    (special_counts : List (String × Nat)) : List (String × Nat) :=
  sortDesc (candidates stopwords min_frequency enable_punctuation_stats word_freq special_counts)

/-- The prefix test excluding pseudo-labels in save_results and
generate_wordcloud, word.startswith of the pseudo-label opener
(main.py lines 320, 329, 356, 384). -/
def startsWithPseudoTag (w : String) : Bool := beginsWith "[整行都是".data w.data

/-- The default settings section written by load_config
(main.py lines 38-50). -/
def configDefaults : List (String × String) :=
  [("min_frequency", "20"), ("enable_punctuation_stats", "true"),
   ("wordcloud_max_words", "200"), ("wordcloud_width", "1200"),
   ("wordcloud_height", "800"), ("wordcloud_background_color", "white"),
   ("font_path", "C:/Windows/Fonts/simhei.ttf"),
   ("show_wordcloud", "true"), ("save_wordcloud", "true")]

/-- Possible states of the configuration file as seen by load_config:
absent; present but not openable; present and openable but raising a
parse error; or present, openable and parsed into sections (a section
name mapped to its key-value pairs). -/
inductive CfgFile
  | absent
  | unreadable
  | malformed
  | wellFormed (sections : List (String × List (String × String)))

/-- ChatFrequencyAnalyzer.load_config (main.py lines 25-71), returning
the resulting parser state as sections together with whether a default
configuration file was written out.  Library semantics modelled here:
configparser.read silently skips a file it cannot open (leaving the
parser empty), and raises on a parse error, which the source catches
and answers with read_dict of the defaults; an absent file takes the
defaults and writes them out. -/
def load_config : CfgFile → List (String × List (String × String)) × Bool
  | .absent => ([("settings", configDefaults)], true)
  | .unreadable => ([], false)
  | .malformed => ([("settings", configDefaults)], false)
  | .wellFormed sections => (sections, false)

/-- Lookup of a key in an association list, first match. -/
def kvLookup (kvs : List (String × String)) (k : String) : Option String :=
  match kvs.find? (fun p => p.1 == k) with
  | some p => some p.2
  | none => none

/-- ConfigParser.get: section lookup then key lookup; none models the
NoSectionError or NoOptionError exception. -/
def cfgGet (sections : List (String × List (String × String))) (sec k : String) :
    Option String :=
  match sections.find? (fun p => p.1 == sec) with
  | some p => kvLookup p.2 k
  | none => none

/-- Accumulating decimal digit parser: none as soon as a non-digit
appears. -/
def digitsToNat : List Char → Nat → Option Nat
  | [], acc => some acc
  | c :: cs, acc =>
    if c.isDigit then digitsToNat cs (acc * 10 + (c.toNat - '0'.toNat)) else none

/-- Model of the Python int conversion performed by getint, for the
plain decimal strings the configuration uses: an optional sign
followed by one or more ASCII digits. -/
def parseInt (s : String) : Option Int :=
  match s.data with
  | [] => none
  | '-' :: [] => none
  | '-' :: cs => (digitsToNat cs 0).map (fun n => -(n : Int))
  | '+' :: [] => none
  | '+' :: cs => (digitsToNat cs 0).map (fun n => (n : Int))
  | cs => (digitsToNat cs 0).map (fun n => (n : Int))

/-- Character-wise ASCII lower-casing. -/
def lowerStr (s : String) : String := String.mk (s.data.map Char.toLower)

/-- ConfigParser.getint: get then int conversion; none models any of
the exceptions raised on the way (a failing conversion raises
ValueError). -/
def cfgGetint (sections : List (String × List (String × String))) (sec k : String) :
    Option Int :=
  match cfgGet sections sec k with
  | some v => parseInt v
  | none => none

/-- ConfigParser.getboolean: get then conversion through the accepted
boolean literal table of configparser, lower-cased. -/
def cfgGetboolean (sections : List (String × List (String × String))) (sec k : String) :
    Option Bool :=
  match cfgGet sections sec k with
  | some v =>
    let w := lowerStr v
    if w == "1" || w == "yes" || w == "true" || w == "on" then some true
    else if w == "0" || w == "no" || w == "false" || w == "off" then some false
    else none
  | none => none

/-- ChatFrequencyAnalyzer.__init__ through its configuration reads
(main.py lines 13-22): load the configuration, then read min_frequency
and enable_punctuation_stats from the settings section; none models an
exception escaping initialization. -/
def analyzerInit (fs : CfgFile) : Option (Int × Bool) :=
  let cfg := (load_config fs).1
  match cfgGetint cfg "settings" "min_frequency",
        cfgGetboolean cfg "settings" "enable_punctuation_stats" with
  | some m, some b => some (m, b)
  | _, _ => none

theorem mem_insertDesc {x y : String × Nat} {l : List (String × Nat)} :
    y ∈ insertDesc x l ↔ y = x ∨ y ∈ l := by
  induction l with
  | nil => simp [insertDesc]
  | cons z zs ih =>
    simp only [insertDesc]
    split
    · simp [List.mem_cons]
    · simp only [List.mem_cons, ih]
      tauto

theorem mem_sortDesc {y : String × Nat} {l : List (String × Nat)} :
    y ∈ sortDesc l ↔ y ∈ l := by
  induction l with
  | nil => simp [sortDesc]
  | cons x xs ih => simp [sortDesc, mem_insertDesc, ih]

theorem mem_dictInsert {d : List (String × Nat)} {k : String} {v : Nat} {p : String × Nat}
    (hp : p ∈ dictInsert d k v) : p = (k, v) ∨ p ∈ d := by
  unfold dictInsert at hp
  split at hp
  · rcases List.mem_map.mp hp with ⟨q, hq, hqe⟩
    by_cases h : q.1 == k
    · simp [h] at hqe
      exact Or.inl hqe.symm
    · simp [h] at hqe
      exact Or.inr (hqe ▸ hq)
  · rcases List.mem_append.mp hp with h | h
    · exact Or.inr h
    · simp at h
      exact Or.inl h

theorem dictInsert_key_mem (d : List (String × Nat)) (k : String) (v : Nat) :
    k ∈ (dictInsert d k v).map Prod.fst := by
  unfold dictInsert
  split
  · rename_i hany
    rcases List.any_eq_true.mp hany with ⟨q, hq, hqk⟩
    refine List.mem_map.mpr ⟨(k, v), ?_, rfl⟩
    refine List.mem_map.mpr ⟨q, hq, ?_⟩
    simp [hqk]
  · simp

theorem dictInsert_key_pres {d : List (String × Nat)} {k : String} (k' : String) (v : Nat)
    (h : k ∈ d.map Prod.fst) : k ∈ (dictInsert d k' v).map Prod.fst := by
  rcases List.mem_map.mp h with ⟨q, hq, hqk⟩
  unfold dictInsert
  split
  · by_cases hk : q.1 == k'
    · refine List.mem_map.mpr ⟨(k', v), List.mem_map.mpr ⟨q, hq, by simp [hk]⟩, ?_⟩
      have : q.1 = k' := by simpa using hk
      simp [← hqk, this]
    · exact List.mem_map.mpr ⟨q, List.mem_map.mpr ⟨q, hq, by simp [hk]⟩, hqk⟩
  · exact List.mem_map.mpr ⟨q, List.mem_append_left _ hq, hqk⟩

/-- The fold that merges qualifying punctuation categories into the
candidate table (main.py lines 273-278), abbreviated for the lemmas. -/
theorem foldl_dictInsert_min (m : Nat) :
    ∀ (sc acc : List (String × Nat)), (∀ p ∈ acc, m ≤ p.2) →
      ∀ p ∈ sc.foldl
        (fun acc q =>
          if decide (m ≤ q.2) then dictInsert acc (pseudoLabel q.1) q.2 else acc) acc,
        m ≤ p.2 := by
  intro sc
  induction sc with
  | nil => exact fun acc h p hp => h p hp
  | cons q rest ih =>
    intro acc h p hp
    simp only [List.foldl_cons] at hp
    refine ih _ ?_ p hp
    intro r hr
    by_cases hq : m ≤ q.2
    · simp [hq] at hr
      rcases mem_dictInsert hr with rfl | hr'
      · exact hq
      · exact h r hr'
    · simp [hq] at hr
      exact h r hr

theorem candidates_min_le (stopwords : List String) (m : Nat) (enable : Bool)
    (wf sc : List (String × Nat)) :
    ∀ p ∈ candidates stopwords m enable wf sc, m ≤ p.2 := by
  intro p hp
  unfold candidates at hp
  have hfil : ∀ r ∈ wf.filter
      (fun p => !(stopwords.contains p.1) && decide (m ≤ p.2)), m ≤ r.2 := by
    intro r hr
    have := (List.mem_filter.mp hr).2
    simp at this
    exact this.2
  cases enable with
  | false => simpa using hfil p (by simpa using hp)
  | true =>
    simp only [if_true] at hp
    exact foldl_dictInsert_min m sc _ hfil p hp

/-- Claim C1: every pair in the Ranked Result produced by
filter_and_sort has a count at least min_frequency. -/
theorem filter_and_sort_threshold_invariant (stopwords : List String) (m : Nat)
    (enable : Bool) (wf sc : List (String × Nat)) (p : String × Nat)
    (hp : p ∈ filter_and_sort stopwords m enable wf sc) : m ≤ p.2 :=
  candidates_min_le stopwords m enable wf sc p (mem_sortDesc.mp hp)

theorem filter_and_sort_threshold_invariant_witness :
    ("你好", 25) ∈ filter_and_sort ["的"] 20 true [("的", 1000), ("你好", 25)] [("句号", 30)] ∧
    20 ≤ 25 :=
  ⟨by decide,
   filter_and_sort_threshold_invariant ["的"] 20 true [("的", 1000), ("你好", 25)]
     [("句号", 30)] ("你好", 25) (by decide)⟩

theorem foldl_dictInsert_nonpseudo (m : Nat) (PN : List String)
    (base : List (String × Nat)) :
    ∀ (sc acc : List (String × Nat)), (∀ q ∈ sc, pseudoLabel q.1 ∈ PN) →
      (∀ p ∈ acc, p.1 ∉ PN → p ∈ base) →
      ∀ p ∈ sc.foldl
        (fun acc q =>
          if decide (m ≤ q.2) then dictInsert acc (pseudoLabel q.1) q.2 else acc) acc,
        p.1 ∉ PN → p ∈ base := by
  intro sc
  induction sc with
  | nil => exact fun acc _ hacc p hp => hacc p hp
  | cons q rest ih =>
    intro acc hsc hacc p hp
    simp only [List.foldl_cons] at hp
    refine ih _ (fun r hr => hsc r (List.mem_cons_of_mem _ hr)) ?_ p hp
    intro r hr hrn
    by_cases hq : m ≤ q.2
    · simp [hq] at hr
      rcases mem_dictInsert hr with rfl | hr'
      · exact absurd (hsc q (List.mem_cons_self _ _)) hrn
      · exact hacc r hr' hrn
    · simp [hq] at hr
      exact hacc r hr hrn

theorem foldl_dictInsert_key_pres (m : Nat) (k : String) :
    ∀ (sc acc : List (String × Nat)), k ∈ acc.map Prod.fst →
      k ∈ (sc.foldl
        (fun acc q =>
          if decide (m ≤ q.2) then dictInsert acc (pseudoLabel q.1) q.2 else acc)
        acc).map Prod.fst := by
  intro sc
  induction sc with
  | nil => exact fun acc h => h
  | cons q rest ih =>
    intro acc h
    simp only [List.foldl_cons]
    refine ih _ ?_
    by_cases hq : m ≤ q.2
    · rw [if_pos (decide_eq_true hq)]
      exact dictInsert_key_pres _ _ h
    · simpa [hq] using h

theorem foldl_dictInsert_key (m : Nat) (name : String) (count : Nat) :
    ∀ (sc acc : List (String × Nat)), (name, count) ∈ sc → m ≤ count →
      pseudoLabel name ∈ (sc.foldl
        (fun acc q =>
          if decide (m ≤ q.2) then dictInsert acc (pseudoLabel q.1) q.2 else acc)
        acc).map Prod.fst := by
  intro sc
  induction sc with
  | nil => intro acc h; simp at h
  | cons q rest ih =>
    intro acc hmem hm
    simp only [List.foldl_cons]
    rcases List.mem_cons.mp hmem with rfl | hrest
    · refine foldl_dictInsert_key_pres m _ rest _ ?_
      rw [if_pos (decide_eq_true hm)]
      exact dictInsert_key_mem _ _ _
    · exact ih _ hrest hm

/-- Claim C2: no label of the Ranked Result outside the synthesized
pseudo-labels of the punctuation tally lies in the stopword set, and
every enabled category whose tally reaches the threshold contributes
its pseudo-label to the result with no stopword check. -/
theorem filter_and_sort_stopword_exclusion (stopwords : List String) (m : Nat)
    (enable : Bool) (wf sc : List (String × Nat)) :
    (∀ p ∈ filter_and_sort stopwords m enable wf sc,
      p.1 ∉ sc.map (fun q => pseudoLabel q.1) → p.1 ∉ stopwords) ∧
    (∀ name count, enable = true → (name, count) ∈ sc → m ≤ count →
      pseudoLabel name ∈ (filter_and_sort stopwords m enable wf sc).map Prod.fst) := by
  constructor
  · intro p hp hnp
    have hc : p ∈ candidates stopwords m enable wf sc := mem_sortDesc.mp hp
    have hfil : p ∈ wf.filter
        (fun p => !(stopwords.contains p.1) && decide (m ≤ p.2)) := by
      unfold candidates at hc
      cases enable with
      | false => simpa using hc
      | true =>
        simp only [if_true] at hc
        exact foldl_dictInsert_nonpseudo m _ _ sc _
          (fun q hq => List.mem_map.mpr ⟨q, hq, rfl⟩) (fun r hr _ => hr) p hc hnp
    have hcond := (List.mem_filter.mp hfil).2
    simp at hcond
    exact hcond.1
  · intro name count henable hmem hm
    have : pseudoLabel name ∈ (candidates stopwords m enable wf sc).map Prod.fst := by
      unfold candidates
      rw [henable]
      simp only [if_true]
      exact foldl_dictInsert_key m name count sc _ hmem hm
    rcases List.mem_map.mp this with ⟨p, hp, hpk⟩
    exact List.mem_map.mpr ⟨p, mem_sortDesc.mpr hp, hpk⟩

theorem filter_and_sort_stopword_exclusion_witness :
    ("好", 30) ∈ filter_and_sort ["的"] 20 true [("的", 1000), ("好", 30)] [("句号", 30)] ∧
    ("好" : String) ∉ ["的"] ∧
    pseudoLabel "句号" ∈
      (filter_and_sort ["的"] 20 true [("的", 1000), ("好", 30)] [("句号", 30)]).map Prod.fst :=
  ⟨by decide,
   (filter_and_sort_stopword_exclusion ["的"] 20 true [("的", 1000), ("好", 30)]
      [("句号", 30)]).1 ("好", 30) (by decide) (by decide),
   (filter_and_sort_stopword_exclusion ["的"] 20 true [("的", 1000), ("好", 30)]
      [("句号", 30)]).2 "句号" 30 rfl (by decide) (by decide)⟩

theorem filter_insertDesc (x : String × Nat) (l : List (String × Nat)) (n : Nat) :
    (insertDesc x l).filter (fun p => p.2 == n) =
      if x.2 == n then x :: l.filter (fun p => p.2 == n)
      else l.filter (fun p => p.2 == n) := by
  induction l with
  | nil => cases hx : (x.2 == n) <;> simp [insertDesc, List.filter_cons, hx]
  | cons y ys ih =>
    simp only [insertDesc]
    by_cases hle : y.2 ≤ x.2
    · cases hx : (x.2 == n) <;> simp [hle, List.filter_cons, hx]
    · rcases hx : (x.2 == n) with _ | _
      · simp [hle, List.filter_cons, ih, hx]
      · have hxn : x.2 = n := by simpa using hx
        have hyn : (y.2 == n) = false := by
          have : y.2 ≠ n := by omega
          simpa using this
        simp [hle, List.filter_cons, hyn, ih, hx]

theorem filter_sortDesc (l : List (String × Nat)) (n : Nat) :
    (sortDesc l).filter (fun p => p.2 == n) = l.filter (fun p => p.2 == n) := by
  induction l with
  | nil => rfl
  | cons x xs ih =>
    simp only [sortDesc, filter_insertDesc, ih, List.filter_cons]

theorem sorted_insertDesc {x : String × Nat} {l : List (String × Nat)}
    (h : List.Chain' (fun a b : String × Nat => b.2 ≤ a.2) l) :
    List.Chain' (fun a b : String × Nat => b.2 ≤ a.2) (insertDesc x l) := by
  induction l with
  | nil => exact List.chain'_singleton x
  | cons y ys ih =>
    simp only [insertDesc]
    by_cases hle : y.2 ≤ x.2
    · simp only [hle, if_true]
      exact List.chain'_cons.mpr ⟨hle, h⟩
    · simp only [hle, if_false]
      have h2 := List.chain'_cons'.mp h
      refine List.chain'_cons'.mpr ⟨?_, ih h2.2⟩
      intro z hz
      cases ys with
      | nil =>
        simp [insertDesc] at hz
        subst hz
        omega
      | cons w ws =>
        simp only [insertDesc] at hz
        by_cases hw : w.2 ≤ x.2
        · simp [hw] at hz
          subst hz
          omega
        · simp [hw] at hz
          subst hz
          exact h2.1 w (by simp)

theorem sorted_sortDesc (l : List (String × Nat)) :
    List.Chain' (fun a b : String × Nat => b.2 ≤ a.2) (sortDesc l) := by
  induction l with
  | nil => exact List.chain'_nil
  | cons x xs ih => exact sorted_insertDesc ih

/-- Claim C3: filter_and_sort is deterministic across two runs on the
same tables, its output is sorted by count descending, and entries of
any one count value appear in exactly their order in the pre-sort
candidate table, so equal counts keep their encounter order. -/
theorem filter_and_sort_deterministic_stable (stopwords : List String) (m : Nat)
    (enable : Bool) (wf sc : List (String × Nat)) (n : Nat) :
    filter_and_sort stopwords m enable wf sc = filter_and_sort stopwords m enable wf sc ∧
    List.Chain' (fun a b : String × Nat => b.2 ≤ a.2)
      (filter_and_sort stopwords m enable wf sc) ∧
    (filter_and_sort stopwords m enable wf sc).filter (fun p => p.2 == n) =
      (candidates stopwords m enable wf sc).filter (fun p => p.2 == n) :=
  ⟨rfl, sorted_sortDesc _, filter_sortDesc _ n⟩

theorem filter_and_sort_deterministic_stable_witness :
    filter_and_sort [] 1 false [("b", 5), ("a", 7), ("c", 5)] [] =
      filter_and_sort [] 1 false [("b", 5), ("a", 7), ("c", 5)] [] ∧
    List.Chain' (fun a b : String × Nat => b.2 ≤ a.2)
      (filter_and_sort [] 1 false [("b", 5), ("a", 7), ("c", 5)] []) ∧
    (filter_and_sort [] 1 false [("b", 5), ("a", 7), ("c", 5)] []).filter
        (fun p => p.2 == 5) =
      (candidates [] 1 false [("b", 5), ("a", 7), ("c", 5)] []).filter
        (fun p => p.2 == 5) :=
  filter_and_sort_deterministic_stable [] 1 false [("b", 5), ("a", 7), ("c", 5)] [] 5

/-- Claim C8: scenario C and the empty edge case of filter_and_sort,
against the built-in stopword set and threshold 20. -/
theorem filter_and_sort_scenario_c :
    filter_and_sort default_stopwords 20 true [("你好", 25), ("再见", 19)] [] =
      [("你好", 25)] ∧
    filter_and_sort default_stopwords 20 true [] [("句号", 5), ("问号", 0)] = [] := by
  constructor <;> rfl

/-- Claim C5: a missing input file or one that is not UTF-8 yields the
pair of empty tables from analyze_chat_file rather than an exception. -/
theorem analyze_chat_file_error_empty (enable : Bool) (seg : String → List String) :
    analyze_chat_file enable seg FileRead.notFound = ([], []) ∧
    analyze_chat_file enable seg FileRead.badEncoding = ([], []) :=
  ⟨rfl, rfl⟩

theorem analyze_chat_file_error_empty_witness :
    analyze_chat_file true (fun _ => []) FileRead.notFound = ([], []) ∧
    analyze_chat_file true (fun _ => []) FileRead.badEncoding = ([], []) :=
  analyze_chat_file_error_empty true (fun _ => [])

/-- Claim C7, counterexample: a configuration file that exists and
parses without error but contains no settings section (an empty file
is such a state) makes initialization raise NoSectionError, so
configuration loading is not non-fatal for every state of the file. -/
theorem load_config_not_total_counterexample :
    analyzerInit (CfgFile.wellFormed []) = none := rfl

/-- Claim C7 as amended: a missing file loads the defaults and writes
them out; a file whose parse raises falls back to the defaults in
memory with the file untouched; but a file that the parser reads
without raising yet that yields no valid settings section, including
an unreadable file that configparser.read silently skips, makes
initialization raise. -/
theorem load_config_defaults_amended :
    analyzerInit CfgFile.absent = some (20, true) ∧
    (load_config CfgFile.absent).2 = true ∧
    analyzerInit CfgFile.malformed = some (20, true) ∧
    (load_config CfgFile.malformed).2 = false ∧
    analyzerInit CfgFile.unreadable = none :=
  ⟨rfl, rfl, rfl, rfl, rfl⟩

theorem counterAdd_pos {d : List (String × Nat)} {w : String}
    (h : ∀ p ∈ d, 1 ≤ p.2) : ∀ p ∈ counterAdd d w, 1 ≤ p.2 := by
  intro p hp
  unfold counterAdd at hp
  split at hp
  · rcases List.mem_map.mp hp with ⟨q, hq, hqe⟩
    by_cases hk : q.1 == w
    · simp [hk] at hqe
      rw [← hqe]
      simp
    · simp [hk] at hqe
      exact hqe ▸ h q hq
  · rcases List.mem_append.mp hp with h' | h'
    · exact h p h'
    · simp at h'
      simp [h']

theorem foldl_counterAdd_pos :
    ∀ (ws : List String) (d : List (String × Nat)), (∀ p ∈ d, 1 ≤ p.2) →
      ∀ p ∈ ws.foldl counterAdd d, 1 ≤ p.2 := by
  intro ws
  induction ws with
  | nil => exact fun d h => h
  | cons w rest ih =>
    intro d h
    simp only [List.foldl_cons]
    exact ih _ (counterAdd_pos h)

theorem processLine_pos {enable : Bool} {seg : String → List String} {st : AState}
    {line : String} (h : ∀ p ∈ st.1, 1 ≤ p.2) :
    ∀ p ∈ (processLine enable seg st line).1, 1 ≤ p.2 := by
  rcases hcl : classifyLine enable seg line with _ | _ | ws
  · simpa [processLine, hcl] using h
  · simpa [processLine, hcl] using h
  · simpa [processLine, hcl] using foldl_counterAdd_pos ws st.1 h

theorem foldl_processLine_pos (enable : Bool) (seg : String → List String) :
    ∀ (lines : List String) (st : AState), (∀ p ∈ st.1, 1 ≤ p.2) →
      ∀ p ∈ (lines.foldl (processLine enable seg) st).1, 1 ≤ p.2 := by
  intro lines
  induction lines with
  | nil => exact fun st h => h
  | cons l rest ih =>
    intro st h
    simp only [List.foldl_cons]
    exact ih _ (processLine_pos h)

/-- Claim C9: every count in the word frequency table returned for a
successfully read file is at least one, since entries are only ever
created at one or incremented. -/
theorem analyze_chat_file_counts_positive (enable : Bool) (seg : String → List String)
    (lines : List String) (p : String × Nat)
    (hp : p ∈ (analyze_chat_file enable seg (FileRead.ok lines)).1) : 1 ≤ p.2 :=
  foldl_processLine_pos enable seg lines ([], 0, 0) (by simp) p hp

theorem analyze_chat_file_counts_positive_witness :
    ("hi", 1) ∈ (analyze_chat_file true (fun s => [s]) (FileRead.ok ["hi"])).1 ∧
    1 ≤ (("hi", 1) : String × Nat).2 :=
  ⟨by decide,
   analyze_chat_file_counts_positive true (fun s => [s]) ["hi"] ("hi", 1) (by decide)⟩

theorem string_ne_empty_data {s : String} (h : s ≠ "") : s.data ≠ [] := by
  intro hnil
  apply h
  cases s with
  | mk d =>
    simp at hnil
    rw [hnil]

theorem string_length_pos {s : String} (h : s ≠ "") : 0 < s.length := by
  have hd := string_ne_empty_data h
  cases he : s.data with
  | nil => exact absurd he hd
  | cons c cs =>
    show 0 < s.data.length
    simp [he]

theorem classifyLine_period {seg : String → List String} {line : String}
    (h1 : pyStripStr line ≠ "")
    (h2 : (pyStripStr line).data.all (fun c => c == '。') = true) :
    classifyLine true seg line = LineStep.periodLine := by
  have hAll : ∀ x ∈ (pyStripStr line).data, x = '。' := by simpa using h2
  have hLen : 0 < (pyStripStr line).length := string_length_pos h1
  have hne2 : ¬(pyStripStr line = "？") := by
    intro hv
    rw [hv] at h2
    simp at h2
  by_cases heq : pyStripStr line = "。"
  · simp [classifyLine, heq]
  · simp [classifyLine, heq, hne2, hLen]
    intro x hx hne
    exact absurd (hAll x hx) hne

theorem classifyLine_question {seg : String → List String} {line : String}
    (h1 : pyStripStr line ≠ "")
    (h2 : (pyStripStr line).data.all (fun c => c == '？') = true) :
    classifyLine true seg line = LineStep.questionLine := by
  have hAll : ∀ x ∈ (pyStripStr line).data, x = '？' := by simpa using h2
  have hLen : 0 < (pyStripStr line).length := string_length_pos h1
  have hne1 : ¬(pyStripStr line = "。") := by
    intro hv
    rw [hv] at h2
    simp at h2
  have hnotall : ¬(∀ x ∈ (pyStripStr line).data, x = '。') := by
    intro hc
    cases hd : (pyStripStr line).data with
    | nil => exact absurd hd (string_ne_empty_data h1)
    | cons c cs =>
      have h1c := hAll c (by rw [hd]; exact List.mem_cons_self _ _)
      have h2c := hc c (by rw [hd]; exact List.mem_cons_self _ _)
      rw [h1c] at h2c
      exact absurd h2c (by decide)
  by_cases heq : pyStripStr line = "？"
  · simp [classifyLine, hne1, heq]
  · simp [classifyLine, hne1, heq, hnotall, hLen]
    intro x hx hne
    exact absurd (hAll x hx) hne

theorem classifyLine_false_words (seg : String → List String) (line : String) :
    ∃ ws, classifyLine false seg line = LineStep.words ws := by
  unfold classifyLine
  simp only [Bool.false_and, if_false]
  rcases hp : (preprocess_text line == "") with _ | _
  · exact ⟨extract_words seg (preprocess_text line), by simp [hp]⟩
  · exact ⟨[], by simp [hp]⟩

theorem processLine_false_counters (seg : String → List String) (st : AState)
    (line : String) :
    (processLine false seg st line).2.1 = st.2.1 ∧
    (processLine false seg st line).2.2 = st.2.2 := by
  rcases classifyLine_false_words seg line with ⟨ws, hws⟩
  simp [processLine, hws]

/-- Claim C4: with punctuation stats enabled, a line whose stripped
content is non-empty and consists solely of periods (or question
marks) increments exactly that category tally by one and contributes
no word tokens; the single and repeated forms of the line are treated
identically; with the flag disabled no line is consumed by the
detector. -/
theorem punctuation_line_detector_spec (seg : String → List String) (st : AState)
    (lineP lineQ lineN : String) :
    (pyStripStr lineP ≠ "" → (pyStripStr lineP).data.all (fun c => c == '。') = true →
      processLine true seg st lineP = (st.1, st.2.1 + 1, st.2.2)) ∧
    (pyStripStr lineQ ≠ "" → (pyStripStr lineQ).data.all (fun c => c == '？') = true →
      processLine true seg st lineQ = (st.1, st.2.1, st.2.2 + 1)) ∧
    processLine true seg st "。" = processLine true seg st "。。。" ∧
    ((processLine false seg st lineN).2.1 = st.2.1 ∧
      (processLine false seg st lineN).2.2 = st.2.2) := by
  refine ⟨?_, ?_, ?_, processLine_false_counters seg st lineN⟩
  · intro h1 h2
    simp [processLine, classifyLine_period h1 h2]
  · intro h1 h2
    simp [processLine, classifyLine_question h1 h2]
  · rfl

theorem punctuation_line_detector_spec_witness :
    processLine true (fun s => [s]) (([], 0, 0) : AState) "。。。" = ([], 0 + 1, 0) ∧
    processLine true (fun s => [s]) (([], 0, 0) : AState) "？？" = ([], 0, 0 + 1) :=
  ⟨(punctuation_line_detector_spec (fun s => [s]) ([], 0, 0) "。。。" "？？" "x").1
      (by decide) (by decide),
   (punctuation_line_detector_spec (fun s => [s]) ([], 0, 0) "。。。" "？？" "x").2.1
      (by decide) (by decide)⟩

theorem beginsWith_mem : ∀ {p l : List Char}, beginsWith p l = true → ∀ c ∈ p, c ∈ l := by
  intro p
  induction p with
  | nil => intro l _ c hc; simp at hc
  | cons a as ih =>
    intro l h c hc
    cases l with
    | nil => simp [beginsWith] at h
    | cons b bs =>
      simp only [beginsWith, Bool.and_eq_true] at h
      rcases List.mem_cons.mp hc with rfl | hc'
      · have : c = b := by simpa using h.1
        simp [this]
      · exact List.mem_cons_of_mem _ (ih h.2 c hc')

theorem urlStartsAt_eq_false {l : List Char} (h : ':' ∉ l) : urlStartsAt l = false := by
  have h8 : beginsWith "https://".toList l = false := by
    cases hb : beginsWith "https://".toList l with
    | false => rfl
    | true => exact absurd (beginsWith_mem hb ':' (by decide)) h
  have h7 : beginsWith "http://".toList l = false := by
    cases hb : beginsWith "http://".toList l with
    | false => rfl
    | true => exact absurd (beginsWith_mem hb ':' (by decide)) h
  unfold urlStartsAt
  rw [h8, h7]
  rfl

theorem urlStripGo_eq_self : ∀ {l : List Char}, ':' ∉ l → urlStripGo false l = l := by
  intro l
  induction l with
  | nil => intro _; rfl
  | cons c cs ih =>
    intro h
    have hcs : ':' ∉ cs := fun hc => h (List.mem_cons_of_mem _ hc)
    simp [urlStripGo, urlStartsAt_eq_false h, ih hcs]

theorem urlStrip_eq_self {l : List Char} (h : ':' ∉ l) : urlStrip l = l :=
  urlStripGo_eq_self h

theorem emailStartsAt_eq_false {l : List Char} (h : '@' ∉ l) : emailStartsAt l = false := by
  cases l with
  | nil => rfl
  | cons c cs =>
    simp [emailStartsAt]
    intro _ x hx hxe
    have hx1 := List.Sublist.mem hx (List.dropLast_sublist _)
    have hx2 := List.Sublist.mem hx1 (List.tail_sublist _)
    have hx3 := List.Sublist.mem hx2 (List.takeWhile_sublist _)
    exact h (hxe ▸ hx3)

theorem emailStripGo_eq_self : ∀ {l : List Char}, '@' ∉ l → emailStripGo false l = l := by
  intro l
  induction l with
  | nil => intro _; rfl
  | cons c cs ih =>
    intro h
    have hcs : '@' ∉ cs := fun hc => h (List.mem_cons_of_mem _ hc)
    simp [emailStripGo, emailStartsAt_eq_false h, ih hcs]

theorem emailStrip_eq_self {l : List Char} (h : '@' ∉ l) : emailStrip l = l :=
  emailStripGo_eq_self h

/-- Adjacent-pair discipline of a collapsed string: no two consecutive
whitespace characters. -/
def wsFree (a b : Char) : Prop :=
  ¬(a.isWhitespace = true ∧ b.isWhitespace = true)

theorem wsFree_symm {a b : Char} (h : wsFree a b) : wsFree b a :=
  fun hc => h ⟨hc.2, hc.1⟩

theorem mem_collapseWs : ∀ {l : List Char} {x : Char}, x ∈ collapseWs l → x = ' ' ∨ x ∈ l := by
  intro l
  induction l with
  | nil => intro x hx; simp [collapseWs] at hx
  | cons c cs ih =>
    intro x hx
    cases cs with
    | nil =>
      by_cases hc : c.isWhitespace
      · simp [collapseWs, hc] at hx
        exact Or.inl hx
      · simp [collapseWs, hc] at hx
        exact Or.inr (by simp [hx])
    | cons d cs' =>
      by_cases hcd : (c.isWhitespace && d.isWhitespace) = true
      · rw [show collapseWs (c :: d :: cs') = collapseWs (d :: cs') by
          simp [collapseWs, hcd]] at hx
        rcases ih hx with h | h
        · exact Or.inl h
        · exact Or.inr (List.mem_cons_of_mem _ h)
      · rw [show collapseWs (c :: d :: cs') =
            (if c.isWhitespace then ' ' else c) :: collapseWs (d :: cs') by
          simp [collapseWs, hcd]] at hx
        rcases List.mem_cons.mp hx with rfl | hx'
        · by_cases hc : c.isWhitespace
          · simp [hc]
          · simp [hc]
        · rcases ih hx' with h | h
          · exact Or.inl h
          · exact Or.inr (List.mem_cons_of_mem _ h)

theorem wsOnly_collapseWs : ∀ {l : List Char} {x : Char}, x ∈ collapseWs l →
    x.isWhitespace = true → x = ' ' := by
  intro l
  induction l with
  | nil => intro x hx; simp [collapseWs] at hx
  | cons c cs ih =>
    intro x hx hws
    cases cs with
    | nil =>
      by_cases hc : c.isWhitespace
      · simpa [collapseWs, hc] using hx
      · simp [collapseWs, hc] at hx
        rw [hx] at hws
        exact absurd hws (by simp [hc])
    | cons d cs' =>
      by_cases hcd : (c.isWhitespace && d.isWhitespace) = true
      · rw [show collapseWs (c :: d :: cs') = collapseWs (d :: cs') by
          simp [collapseWs, hcd]] at hx
        exact ih hx hws
      · rw [show collapseWs (c :: d :: cs') =
            (if c.isWhitespace then ' ' else c) :: collapseWs (d :: cs') by
          simp [collapseWs, hcd]] at hx
        rcases List.mem_cons.mp hx with rfl | hx'
        · by_cases hc : c.isWhitespace
          · simp [hc]
          · rw [if_neg hc] at hws
            exact absurd hws (by simp [hc])
        · exact ih hx' hws

theorem collapseWs_head_ws : ∀ (cs : List Char) (d : Char) {h : Char} {t : List Char},
    collapseWs (d :: cs) = h :: t → h.isWhitespace = d.isWhitespace := by
  intro cs
  induction cs with
  | nil =>
    intro d h t he
    by_cases hd : d.isWhitespace
    · simp [collapseWs, hd] at he
      rw [← he.1]
      simp [hd]
    · simp [collapseWs, hd] at he
      rw [← he.1]
  | cons e cs' ih =>
    intro d h t he
    by_cases hde : (d.isWhitespace && e.isWhitespace) = true
    · rw [show collapseWs (d :: e :: cs') = collapseWs (e :: cs') by
        simp [collapseWs, hde]] at he
      have h1 := ih e he
      have h23 : d.isWhitespace = true ∧ e.isWhitespace = true := by simpa using hde
      rw [h1, h23.1, h23.2]
    · rw [show collapseWs (d :: e :: cs') =
          (if d.isWhitespace then ' ' else d) :: collapseWs (e :: cs') by
        simp [collapseWs, hde]] at he
      have h1 : h = if d.isWhitespace then ' ' else d := (List.cons.injEq _ _ _ _ ▸ he).1.symm
      rw [h1]
      by_cases hd : d.isWhitespace
      · simp [hd]
      · simp [hd]

theorem chain_collapseWs : ∀ (l : List Char), List.Chain' wsFree (collapseWs l) := by
  intro l
  induction l with
  | nil => simp [collapseWs]
  | cons c cs ih =>
    cases cs with
    | nil =>
      by_cases hc : c.isWhitespace <;> simp [collapseWs, hc]
    | cons d cs' =>
      by_cases hcd : (c.isWhitespace && d.isWhitespace) = true
      · rw [show collapseWs (c :: d :: cs') = collapseWs (d :: cs') by
          simp [collapseWs, hcd]]
        exact ih
      · rw [show collapseWs (c :: d :: cs') =
            (if c.isWhitespace then ' ' else c) :: collapseWs (d :: cs') by
          simp [collapseWs, hcd]]
        refine List.chain'_cons'.mpr ⟨?_, ih⟩
        intro y hy
        cases hcw : collapseWs (d :: cs') with
        | nil => simp [hcw] at hy
        | cons h t =>
          rw [hcw] at hy
          simp at hy
          subst hy
          have hws := collapseWs_head_ws cs' d hcw
          intro hcon
          apply hcd
          rw [Bool.and_eq_true]
          constructor
          · by_cases hc : c.isWhitespace
            · exact hc
            · rw [if_neg hc] at hcon
              exact absurd hcon.1 (by simp [hc])
          · rw [← hws]
            exact hcon.2

theorem collapseWs_eq_self : ∀ {l : List Char},
    (∀ x ∈ l, x.isWhitespace = true → x = ' ') → List.Chain' wsFree l →
    collapseWs l = l := by
  intro l
  induction l with
  | nil => intro _ _; rfl
  | cons c cs ih =>
    intro hws hch
    cases cs with
    | nil =>
      by_cases hc : c.isWhitespace
      · have hceq : c = ' ' := hws c (by simp) hc
        subst hceq
        simp [collapseWs]
      · simp [collapseWs, hc]
    | cons d cs' =>
      have hpair := List.chain'_cons.mp hch
      have hcd : (c.isWhitespace && d.isWhitespace) = false := by
        cases hcw : c.isWhitespace with
        | false => simp
        | true =>
          cases hdw : d.isWhitespace with
          | false => simp
          | true => exact absurd ⟨hcw, hdw⟩ hpair.1
      rw [show collapseWs (c :: d :: cs') =
          (if c.isWhitespace then ' ' else c) :: collapseWs (d :: cs') by
        simp [collapseWs, hcd]]
      have htail := ih (fun x hx h => hws x (List.mem_cons_of_mem _ hx) h) hpair.2
      rw [htail]
      by_cases hc : c.isWhitespace
      · rw [if_pos hc, (hws c (by simp) hc).symm]
      · rw [if_neg hc]

theorem mem_pyStrip {l : List Char} {x : Char} (h : x ∈ pyStrip l) : x ∈ l := by
  unfold pyStrip at h
  rw [List.mem_reverse] at h
  have h1 := List.Sublist.mem h (List.dropWhile_sublist _)
  rw [List.mem_reverse] at h1
  exact List.Sublist.mem h1 (List.dropWhile_sublist _)

theorem chain_reverse_wsFree {l : List Char} (h : List.Chain' wsFree l) :
    List.Chain' wsFree l.reverse :=
  List.chain'_reverse.mpr (h.imp (fun _ _ hab => wsFree_symm hab))

theorem chain_pyStrip {l : List Char} (h : List.Chain' wsFree l) :
    List.Chain' wsFree (pyStrip l) := by
  unfold pyStrip
  exact chain_reverse_wsFree
    ((chain_reverse_wsFree (h.suffix (List.dropWhile_suffix _))).suffix
      (List.dropWhile_suffix _))

theorem wsOnly_pyStrip {l : List Char}
    (h : ∀ x ∈ l, x.isWhitespace = true → x = ' ') :
    ∀ x ∈ pyStrip l, x.isWhitespace = true → x = ' ' :=
  fun x hx hw => h x (mem_pyStrip hx) hw

theorem pyStrip_head_not_ws {l : List Char} {c : Char}
    (h : (pyStrip l).head? = some c) : c.isWhitespace = false := by
  unfold pyStrip at h
  rw [List.head?_reverse] at h
  rcases List.dropWhile_suffix (l := (l.dropWhile Char.isWhitespace).reverse)
    Char.isWhitespace with ⟨t, ht⟩
  have hgl : ((l.dropWhile Char.isWhitespace).reverse).getLast? = some c := by
    rw [← ht, List.getLast?_append, h]
    rfl
  rw [List.getLast?_reverse] at hgl
  have hmain := List.head?_dropWhile_not Char.isWhitespace l
  rw [hgl] at hmain
  exact hmain

theorem pyStrip_last_not_ws {l : List Char} {c : Char}
    (h : (pyStrip l).getLast? = some c) : c.isWhitespace = false := by
  unfold pyStrip at h
  rw [List.getLast?_reverse] at h
  have hmain := List.head?_dropWhile_not Char.isWhitespace
    ((l.dropWhile Char.isWhitespace).reverse)
  rw [h] at hmain
  exact hmain

theorem pyStrip_eq_self {l : List Char}
    (hh : ∀ c, l.head? = some c → c.isWhitespace = false)
    (hl : ∀ c, l.getLast? = some c → c.isWhitespace = false) : pyStrip l = l := by
  have h1 : l.dropWhile Char.isWhitespace = l := by
    cases l with
    | nil => rfl
    | cons c cs =>
      rw [List.dropWhile_cons]
      simp [hh c rfl]
  unfold pyStrip
  rw [h1]
  have h2 : l.reverse.dropWhile Char.isWhitespace = l.reverse := by
    cases hr : l.reverse with
    | nil => simp
    | cons c cs =>
      have hcl : l.getLast? = some c := by
        rw [← List.head?_reverse, hr]
        rfl
      rw [List.dropWhile_cons]
      simp [hl c hcl]
  rw [h2, List.reverse_reverse]

/-- Character-level invariant of the Text Normalizer output: every
character of preprocess_text s is in the allowed class. -/
theorem preprocess_text_allowed (s : String) :
    ∀ c ∈ (preprocess_text s).data, allowedChar c = true := by
  intro c hc
  have hc' : c ∈ pyStrip (collapseWs
      ((emailStrip (urlStrip s.data)).filter allowedChar)) := hc
  have hc2 := mem_pyStrip hc'
  rcases mem_collapseWs hc2 with rfl | hc3
  · decide
  · exact (List.mem_filter.mp hc3).2

/-- Claim C6: the Text Normalizer is idempotent; its output is a fixed
point of another application. -/
theorem preprocess_text_idempotent (s : String) :
    preprocess_text (preprocess_text s) = preprocess_text s := by
  have hallow := preprocess_text_allowed s
  set L := pyStrip (collapseWs ((emailStrip (urlStrip s.data)).filter allowedChar)) with hL
  have hLd : (preprocess_text s).data = L := rfl
  rw [hLd] at hallow
  have hnc : ':' ∉ L := by
    intro hc
    have := hallow ':' hc
    exact absurd this (by decide)
  have hna : '@' ∉ L := by
    intro hc
    have := hallow '@' hc
    exact absurd this (by decide)
  have hws : ∀ x ∈ L, x.isWhitespace = true → x = ' ' := by
    rw [hL]
    exact wsOnly_pyStrip (fun x hx hw => wsOnly_collapseWs hx hw)
  have hchain : List.Chain' wsFree L := by
    rw [hL]
    exact chain_pyStrip (chain_collapseWs _)
  have hhead : ∀ c, L.head? = some c → c.isWhitespace = false := by
    rw [hL]
    exact fun c hc => pyStrip_head_not_ws hc
  have hlast : ∀ c, L.getLast? = some c → c.isWhitespace = false := by
    rw [hL]
    exact fun c hc => pyStrip_last_not_ws hc
  show String.mk (pyStrip (collapseWs
      ((emailStrip (urlStrip (preprocess_text s).data)).filter allowedChar))) =
    preprocess_text s
  rw [hLd, urlStrip_eq_self hnc, emailStrip_eq_self hna,
      List.filter_eq_self.mpr hallow, collapseWs_eq_self hws hchain,
      pyStrip_eq_self hhead hlast]
  rfl

theorem preprocess_text_idempotent_witness :
    preprocess_text (preprocess_text "a  b http://x c") = preprocess_text "a  b http://x c" :=
  preprocess_text_idempotent "a  b http://x c"

/-- Claim C10: the normalizer output never contains an opening square
bracket, so no word token drawn from it can begin with the pseudo-label
opener, and the pseudo-label test of save_results and
generate_wordcloud never excludes a genuine token. -/
theorem preprocess_text_no_bracket (s : String) (t : String)
    (ht : ∀ c ∈ t.data, c ∈ (preprocess_text s).data) :
    '[' ∉ (preprocess_text s).data ∧ startsWithPseudoTag t = false := by
  have hbr : '[' ∉ (preprocess_text s).data := by
    intro hc
    have := preprocess_text_allowed s '[' hc
    exact absurd this (by decide)
  refine ⟨hbr, ?_⟩
  cases hb : startsWithPseudoTag t with
  | false => rfl
  | true =>
    exfalso
    have hmem : '[' ∈ t.data := beginsWith_mem hb '[' (by decide)
    exact hbr (ht '[' hmem)

theorem preprocess_text_no_bracket_witness :
    '[' ∉ (preprocess_text "a[b").data ∧ startsWithPseudoTag "ab" = false :=
  preprocess_text_no_bracket "a[b" "ab" (by decide)

end ChatAnalyzer
